import Mathlib

/-!
# Verification of the OpenVM memory subsystem controller

Shallow embedding of `crates/vm/src/system/memory/manager/mod.rs`
(the `MemoryController`, `MemoryAuxColsFactory` and
`memory_image_to_equipartition`) together with a model of the `Memory`
store and the `MemoryInterface` boundary bookkeeping, which are declared
in sibling modules (`manager/memory.rs`, `manager/interface.rs`) and
specified in the natural-language specification.

Field elements are represented by their canonical `u32` value as a `Nat`
(the code only uses `F::ZERO`, `as_canonical_u32` and
`from_canonical_u32` on the values the claims concern). Panics
(`assert!`, `panic!`) are modelled by `Option`: `none` is a fatal abort.
-/

namespace OpenVM

/-- Field elements, by canonical `u32` value. -/
abbrev F := Nat

/-- `pub const CHUNK: usize = 8;` -/
def CHUNK : Nat := 8

/-- Modelled from the spec: `INITIAL_TIMESTAMP` from `manager/memory.rs`
(the timestamp of never-written cells; "a read returns zero with
`prev_timestamp = 0` (the initial timestamp)"). -/
def INITIAL_TIMESTAMP : Nat := 0

/-- A block of an `Equipartition` (`[F; N]` in the source), as a list of
length `N`. -/
abbrev Block := List F

/-- `Equipartition<F, N>`: map from `(address_space, label)` to a block of
`N` field elements; a missing key means the block is all zero. Embedded
as an association list (the `BTreeMap` key order is irrelevant to the
claims, which only look keys up). -/
abbrev Equipartition := List ((Nat × Nat) × Block)

/-- Lookup in an `Equipartition` (first match wins, as keys are unique in
a `BTreeMap`). -/
def Equipartition.get (e : Equipartition) (key : Nat × Nat) : Option Block :=
  (e.find? (fun p => p.1 = key)).map (fun p => p.2)

/-- `TimestampedValues<T, N>`. -/
structure TimestampedValues where
  timestamp : Nat
  values : Block
  deriving Repr, DecidableEq

/-- `TimestampedEquipartition<F, N>`. -/
abbrev TimestampedEquipartition := List ((Nat × Nat) × TimestampedValues)

/-- `MemoryReadRecord<F, N>` (`data` has length `N`). -/
structure MemoryReadRecord where
  address_space : F
  pointer : F
  timestamp : Nat
  prev_timestamp : Nat
  data : List F
  deriving Repr, DecidableEq

/-- `MemoryWriteRecord<F, N>`. -/
structure MemoryWriteRecord where
  address_space : F
  pointer : F
  timestamp : Nat
  prev_timestamp : Nat
  data : List F
  prev_data : List F
  deriving Repr, DecidableEq

/-- Modelled from the spec: an `AccessAdapterRecord` (adapter evidence for
a size-changing merge/split, `adapter.rs` is not part of the sources).
The claims never inspect a record's contents, only whether the
inventory changed, so only the size class is carried. -/
structure AdapterRecord where
  block_size : Nat
  deriving Repr, DecidableEq

/-! ## The Memory store

Modelled from the spec (`manager/memory.rs` is not among the sources;
only its caller `manager/mod.rs` is): the store is the authoritative
mapping from address to (value, last-write logical timestamp) and owns
the global logical clock. Cells are an association list (newest entry
first); a missing address is an implicit `(0, INITIAL_TIMESTAMP)` cell.
Per the spec, a read captures `prev_timestamp`, sets the accessed cells'
timestamps to the current clock and advances the clock by one tick per
access (the convention fixed by the spec's concrete scenario: two
accesses advance the clock by 2); a write additionally stores the new
values and captures `prev_data`. Adapter-record emission (merge/split
evidence) is not modelled — no claim depends on the records' content —
so the modelled store emits an empty record list. -/

/-- The `Memory` store state. -/
structure Memory where
  timestamp : Nat
  cells : List ((Nat × Nat) × (F × Nat))
  deriving Repr, DecidableEq

/-- Current value of a cell: last write's value, or zero if never
written. -/
def Memory.get (m : Memory) (addr_space ptr : Nat) : F :=
  match m.cells.find? (fun p => p.1 = (addr_space, ptr)) with
  | some p => p.2.1
  | none => 0

/-- Last-access timestamp of a cell (`INITIAL_TIMESTAMP` if never
accessed). -/
def Memory.cellTs (m : Memory) (addr_space ptr : Nat) : Nat :=
  match m.cells.find? (fun p => p.1 = (addr_space, ptr)) with
  | some p => p.2.2
  | none => INITIAL_TIMESTAMP

/-- The values of the `n` cells starting at `ptr`. -/
def Memory.readData (m : Memory) (addr_space ptr n : Nat) : List F :=
  List.ofFn (fun i : Fin n => m.get addr_space (ptr + i))

/-- Maximum last-access timestamp over the `n` cells starting at `ptr`
(the `prev_timestamp` of a block access). -/
def Memory.maxTs (m : Memory) (addr_space ptr : Nat) : Nat → Nat
  | 0 => 0
  | n + 1 => max (Memory.maxTs m addr_space ptr n) (m.cellTs addr_space (ptr + n))

/-- Store the values of `data` into consecutive cells starting at `ptr`,
all with last-access timestamp `t`. -/
def writeCells (addr_space ptr t : Nat) : List F → List ((Nat × Nat) × (F × Nat)) →
    List ((Nat × Nat) × (F × Nat))
  | [], cells => cells
  | v :: rest, cells => writeCells addr_space (ptr + 1) t rest (((addr_space, ptr), (v, t)) :: cells)

/-- Set the last-access timestamps of the `n` cells starting at `ptr` to
`t`, keeping their values. -/
def touchCells (addr_space : Nat) : Nat → Nat → Nat → Memory → Memory
  | _, _, 0, m => m
  | ptr, t, n + 1, m =>
    touchCells addr_space (ptr + 1) t n
      { m with cells := ((addr_space, ptr), (m.get addr_space ptr, t)) :: m.cells }

/-- `Memory::read::<N>`: records the observed data and the previous
timestamp, stamps the accessed cells with the current clock, and advances
the clock by one. -/
def Memory.read (m : Memory) (n addr_space ptr : Nat) :
    MemoryReadRecord × Memory × List AdapterRecord :=
  let record : MemoryReadRecord :=
    { address_space := addr_space
      pointer := ptr
      timestamp := m.timestamp
      prev_timestamp := m.maxTs addr_space ptr n
      data := m.readData addr_space ptr n }
  let m' := touchCells addr_space ptr m.timestamp n m
  (record, { m' with timestamp := m.timestamp + 1 }, [])

/-- `Memory::write::<N>`: like `read`, and additionally stores the new
values and captures the previous data. -/
def Memory.write (m : Memory) (addr_space ptr : Nat) (data : List F) :
    MemoryWriteRecord × Memory × List AdapterRecord :=
  let record : MemoryWriteRecord :=
    { address_space := addr_space
      pointer := ptr
      timestamp := m.timestamp
      prev_timestamp := m.maxTs addr_space ptr data.length
      data := data
      prev_data := m.readData addr_space ptr data.length }
  (record,
   { timestamp := m.timestamp + 1
     cells := writeCells addr_space ptr m.timestamp data m.cells },
   [])

/-- `Memory::increment_timestamp`. -/
def Memory.incrementTimestamp (m : Memory) : Memory :=
  { m with timestamp := m.timestamp + 1 }

/-- `Memory::increment_timestamp_by`. -/
def Memory.incrementTimestampBy (m : Memory) (change : Nat) : Memory :=
  { m with timestamp := m.timestamp + change }

/-- `Memory::new(initial_memory)`: cells seeded from an equipartition of
block size `n` (cell `(as, label * n + i)` gets `block[i]` at the
initial timestamp); the clock starts one tick after `INITIAL_TIMESTAMP`. -/
def Memory.new (n : Nat) (initial : Equipartition) : Memory :=
  { timestamp := INITIAL_TIMESTAMP + 1
    cells := initial.foldr
      (fun entry cells =>
        (List.ofFn (fun i : Fin entry.2.length =>
          ((entry.1.1, entry.1.2 * n + i), (entry.2.get i, INITIAL_TIMESTAMP)))) ++ cells)
      [] }

/-- Keep the first occurrence of every key of an association list,
skipping keys already `seen`. -/
def dedupKeysAux (seen : List (Nat × Nat)) :
    List ((Nat × Nat) × (F × Nat)) → List ((Nat × Nat) × (F × Nat))
  | [] => []
  | (k, v) :: rest =>
    if k ∈ seen then dedupKeysAux seen rest
    else (k, v) :: dedupKeysAux (k :: seen) rest

/-- Keep the first occurrence of every key of an association list (the
visible cells of the store, shadowed history dropped). -/
def dedupKeys (cells : List ((Nat × Nat) × (F × Nat))) :
    List ((Nat × Nat) × (F × Nat)) :=
  dedupKeysAux [] cells

/-- Insert value `v` with timestamp `t` at offset `shift` of the block
labelled `key`, creating a zero block of length `n` if absent; the block
timestamp becomes the max of the contributing cell timestamps. -/
def partitionInsert (n : Nat) (key : Nat × Nat) (shift : Nat) (v : F) (t : Nat) :
    TimestampedEquipartition → TimestampedEquipartition
  | [] => [(key, { timestamp := t, values := (List.replicate n 0).set shift v })]
  | (k, b) :: rest =>
    if k = key then
      (k, { timestamp := max b.timestamp t, values := b.values.set shift v }) :: rest
    else
      (k, b) :: partitionInsert n key shift v t rest

/-- `Memory::finalize::<N>`: reconcile the final cells into uniform
`N`-chunk granularity and return the final state as a timestamped
equipartition (plus residual adapter evidence, not modelled). -/
def Memory.finalize (m : Memory) (n : Nat) :
    TimestampedEquipartition × List AdapterRecord :=
  ((dedupKeys m.cells).foldl
    (fun part entry =>
      partitionInsert n (entry.1.1, entry.1.2 / n) (entry.1.2 % n) entry.2.1 entry.2.2 part)
    [], [])

/-! ## The MemoryInterface

Modelled from the spec (`manager/interface.rs` is not among the
sources): the Volatile variant tracks the set of addresses ever touched;
the Persistent variant marks the containing CHUNK-sized label dirty and
holds `initial_memory`. Boundary/Merkle chip internals (trace columns,
hashing) are out of the claims' scope and not carried. -/
inductive MemoryInterface where
  | volatile (touched : List (Nat × Nat))
  | persistent (touched_labels : List (Nat × Nat)) (initial_memory : Equipartition)
  deriving Repr, DecidableEq

/-- `MemoryInterface::touch_address`. -/
def MemoryInterface.touch_address (interface : MemoryInterface) (addr_space ptr : Nat) :
    MemoryInterface :=
  match interface with
  | .volatile touched => .volatile ((addr_space, ptr) :: touched)
  | .persistent labels init => .persistent ((addr_space, ptr / CHUNK) :: labels) init

/-- `FinalState<F>` (the persistent payload is the final equipartition). -/
inductive FinalState where
  | volatile
  | persistent (final_memory : Equipartition)
  deriving Repr, DecidableEq

/-! ## The MemoryController (from `manager/mod.rs`) -/

/-- `MemoryController<F>`. Of `MemoryConfig` only `pointer_max_bits` is
consulted by the embedded operations; bus and range-checker handles
carry no semantics the claims concern. -/
structure MemoryController where
  pointer_max_bits : Nat
  interface_chip : MemoryInterface
  memory : Memory
  access_adapters : List AdapterRecord
  final_state : Option FinalState
  deriving Repr, DecidableEq

/-- `MemoryController::with_volatile_memory`. -/
def MemoryController.with_volatile_memory (pointer_max_bits : Nat) : MemoryController :=
  { pointer_max_bits
    interface_chip := .volatile []
    memory := Memory.new 1 []
    access_adapters := []
    final_state := none }

/-- `MemoryController::with_persistent_memory`. -/
def MemoryController.with_persistent_memory (pointer_max_bits : Nat)
    (initial_memory : Equipartition) : MemoryController :=
  { pointer_max_bits
    interface_chip := .persistent [] initial_memory
    memory := Memory.new CHUNK initial_memory
    access_adapters := []
    final_state := none }

/-- `MemoryController::timestamp`. -/
def MemoryController.timestamp (c : MemoryController) : Nat :=
  c.memory.timestamp

/-- `touch_address` for each of the `n` accessed cells (the
`for i in 0..N` loop of `read`/`write`). -/
def touchRange (interface : MemoryInterface) (addr_space ptr : Nat) :
    Nat → MemoryInterface
  | 0 => interface
  | n + 1 => (touchRange interface addr_space ptr n).touch_address addr_space (ptr + n)

/-- `MemoryController::read::<N>`: bounds assertion, the address-space-0
immediate path, otherwise delegate to the store, forward adapter records
and touch each accessed cell. `none` models a panic. -/
def MemoryController.read (c : MemoryController) (n : Nat) (address_space pointer : F) :
    Option (MemoryReadRecord × MemoryController) :=
  if ¬(address_space = 0 ∨ pointer < 2 ^ c.pointer_max_bits) then none
  else if address_space = 0 then
    if n ≠ 1 then none
    else
      some
        ({ address_space := address_space
           pointer := pointer
           timestamp := c.timestamp
           prev_timestamp := 0
           data := List.replicate n pointer },
         { c with memory := c.memory.incrementTimestamp })
  else
    let (record, memory', adapter_records) := c.memory.read n address_space pointer
    some
      (record,
       { c with
         memory := memory'
         access_adapters := c.access_adapters ++ adapter_records
         interface_chip := touchRange c.interface_chip address_space pointer n })

/-- `MemoryController::read_cell`. -/
def MemoryController.read_cell (c : MemoryController) (address_space pointer : F) :
    Option (MemoryReadRecord × MemoryController) :=
  c.read 1 address_space pointer

/-- `MemoryController::unsafe_read::<N>`: direct lookup, no records, no
clock advancement, no state change. -/
def MemoryController.unsafe_read (c : MemoryController) (n : Nat) (addr_space ptr : F) :
    List F :=
  List.ofFn (fun i : Fin n => c.memory.get addr_space (ptr + i))

/-- `MemoryController::write::<N>` (`data.length` plays the role of `N`). -/
def MemoryController.write (c : MemoryController) (address_space pointer : F)
    (data : List F) : Option (MemoryWriteRecord × MemoryController) :=
  if address_space = 0 then none
  else if ¬(pointer < 2 ^ c.pointer_max_bits) then none
  else
    let (record, memory', adapter_records) := c.memory.write address_space pointer data
    some
      (record,
       { c with
         memory := memory'
         access_adapters := c.access_adapters ++ adapter_records
         interface_chip := touchRange c.interface_chip address_space pointer data.length })

/-- `MemoryController::increment_timestamp`. -/
def MemoryController.increment_timestamp (c : MemoryController) : MemoryController :=
  { c with memory := c.memory.incrementTimestamp }

/-- `MemoryController::increment_timestamp_by`. -/
def MemoryController.increment_timestamp_by (c : MemoryController) (change : Nat) :
    MemoryController :=
  { c with memory := c.memory.incrementTimestampBy change }

/-- `MemoryController::set_initial_memory`: fatal after the clock has
advanced past `INITIAL_TIMESTAMP + 1`; fatal for Volatile unless the
memory is empty; for Persistent, replaces `initial_memory` and rebuilds
the store from it. -/
def MemoryController.set_initial_memory (c : MemoryController) (memory : Equipartition) :
    Option MemoryController :=
  if c.timestamp > INITIAL_TIMESTAMP + 1 then none
  else
    match c.interface_chip with
    | .volatile _ => if ¬memory.isEmpty then none else some c
    | .persistent labels _ =>
      some
        { c with
          interface_chip := .persistent labels memory
          memory := Memory.new CHUNK memory }

/-- Strip the timestamps of a `TimestampedEquipartition` (the
`into_par_iter().map(...)` of persistent `finalize`). -/
def stripTimestamps (p : TimestampedEquipartition) : Equipartition :=
  p.map (fun entry => (entry.1, entry.2.values))

/-- `MemoryController::finalize(hasher)`: fatal if already finalized;
Volatile ignores the hasher and yields no final memory; Persistent
unwraps the hasher (fatal if absent) and returns the final
equipartition. The hasher is modelled by its presence (`Bool`): its
output feeds the Merkle chip, outside the claims' scope. -/
def MemoryController.finalize (c : MemoryController) (hasher : Bool) :
    Option (Option Equipartition × MemoryController) :=
  if c.final_state.isSome then none
  else
    match c.interface_chip with
    | .volatile _ =>
      let (_, records) := c.memory.finalize 1
      some
        (none,
         { c with
           final_state := some .volatile
           access_adapters := c.access_adapters ++ records })
    | .persistent _ _ =>
      if ¬hasher then none
      else
        let (final_partition, records) := c.memory.finalize CHUNK
        let final_memory_values := stripTimestamps final_partition
        some
          (some final_memory_values,
           { c with
             final_state := some (.persistent final_memory_values)
             access_adapters := c.access_adapters ++ records })

/-! ## MemoryAuxColsFactory (from `manager/mod.rs`)

The column payloads (`LessThanAuxCols` range decompositions, the
`IsZeroSubAir` inverse) live in chips outside the sources; the embedded
columns carry the fields the factory computes from the record itself. -/

/-- `MemoryReadAuxCols<F, N>` as built by `make_read_aux_cols`. -/
structure MemoryReadAuxCols where
  prev_timestamp : Nat
  deriving Repr, DecidableEq

/-- `MemoryReadOrImmediateAuxCols<F>` as built by
`make_read_or_immediate_aux_cols` (`is_zero` is the `IsZeroSubAir` flag
for the record's address space). -/
structure MemoryReadOrImmediateAuxCols where
  prev_timestamp : F
  is_zero : F
  deriving Repr, DecidableEq

/-- `MemoryWriteAuxCols<F, N>` as built by `make_write_aux_cols`. -/
structure MemoryWriteAuxCols where
  prev_data : List F
  prev_timestamp : F
  deriving Repr, DecidableEq

/-- `MemoryAuxColsFactory::make_read_aux_cols`: asserts the record's
address space is not zero. -/
def make_read_aux_cols (read : MemoryReadRecord) : Option MemoryReadAuxCols :=
  if read.address_space = 0 then none
  else some { prev_timestamp := read.prev_timestamp }

/-- `MemoryAuxColsFactory::make_read_or_immediate_aux_cols`: accepts
records of any address space. -/
def make_read_or_immediate_aux_cols (read : MemoryReadRecord) :
    MemoryReadOrImmediateAuxCols :=
  { prev_timestamp := read.prev_timestamp
    is_zero := if read.address_space = 0 then 1 else 0 }

/-- `MemoryAuxColsFactory::make_write_aux_cols`. -/
def make_write_aux_cols (write : MemoryWriteRecord) : MemoryWriteAuxCols :=
  { prev_data := write.prev_data
    prev_timestamp := write.prev_timestamp }

/-! ## memory_image_to_equipartition (from `manager/mod.rs`) -/

/-- A sparse `MemoryImage`: `(address_space, address) → value`, with
unique keys (it is a `BTreeMap` in the source). -/
abbrev MemoryImage := List ((Nat × Nat) × F)

/-- `entry(key).or_insert([F::ZERO; N])[shift] = word` on an
equipartition. -/
def epInsert (n : Nat) (key : Nat × Nat) (shift : Nat) (word : F) :
    Equipartition → Equipartition
  | [] => [(key, (List.replicate n 0).set shift word)]
  | (k, b) :: rest =>
    if k = key then (k, b.set shift word) :: rest
    else (k, b) :: epInsert n key shift word rest

/-- The loop body of `memory_image_to_equipartition`:
`shift = addr % N`, `key = (addr_space, addr / N)`,
`entry(key).or_insert([F::ZERO; N])[shift] = word`. -/
def epStep (n : Nat) (result : Equipartition) (entry : (Nat × Nat) × F) : Equipartition :=
  epInsert n (entry.1.1, entry.1.2 / n) (entry.1.2 % n) entry.2 result

/-- `memory_image_to_equipartition`: place each image entry
`(addr_space, addr) → word` at key `(addr_space, addr / N)`, offset
`addr % N`. -/
def memory_image_to_equipartition (n : Nat) (memory_image : MemoryImage) :
    Equipartition :=
  memory_image.foldl (epStep n) []

/-- Reconstruction of a flat memory value from an equipartition:
`value = block[address % N]` at `label = address / N` (zero if the block
is absent). -/
def blockGet (n : Nat) (e : Equipartition) (addr_space addr : Nat) : F :=
  match e.get (addr_space, addr / n) with
  | some b => b.getD (addr % n) 0
  | none => 0

/-- Lookup in a sparse memory image. -/
def imageGet (image : MemoryImage) (key : Nat × Nat) : Option F :=
  (image.find? (fun p => p.1 = key)).map (fun p => p.2)

/-- Every block of the equipartition has length `n`. -/
def EPwf (n : Nat) (e : Equipartition) : Prop :=
  ∀ entry ∈ e, entry.2.length = n

/-! ## Sessions: sequences of controller operations -/

/-- An externally issued controller operation (a call of `read::<N>`,
`write::<N>`, `increment_timestamp` or `increment_timestamp_by`). -/
inductive Op where
  | opRead (n addr_space ptr : Nat)
  | opWrite (addr_space ptr : Nat) (data : List F)
  | opIncr
  | opIncrBy (change : Nat)
  deriving Repr, DecidableEq

/-- Execute one operation; alongside the new controller state, return the
`(prev_timestamp, timestamp)` pair of the emitted read/write record, if
any. `none` models a panic. -/
def execOp (c : MemoryController) : Op → Option (MemoryController × List (Nat × Nat))
  | .opRead n addr_space ptr =>
    (c.read n addr_space ptr).map (fun r => (r.2, [(r.1.prev_timestamp, r.1.timestamp)]))
  | .opWrite addr_space ptr data =>
    (c.write addr_space ptr data).map (fun r => (r.2, [(r.1.prev_timestamp, r.1.timestamp)]))
  | .opIncr => some (c.increment_timestamp, [])
  | .opIncrBy change => some (c.increment_timestamp_by change, [])

/-- Execute a sequence of operations, collecting all emitted records'
`(prev_timestamp, timestamp)` pairs. -/
def execOps (c : MemoryController) : List Op → Option (MemoryController × List (Nat × Nat))
  | [] => some (c, [])
  | op :: rest =>
    (execOp c op).bind fun step =>
      (execOps step.1 rest).map fun tail => (tail.1, step.2 ++ tail.2)

/-- The value an operation writes to address `addr` (the cell's slice of
the written data), if the operation is a write covering `addr`. -/
def writeAt : Op → Nat × Nat → Option F
  | .opWrite addr_space ptr data, addr =>
    if addr.1 = addr_space ∧ ptr ≤ addr.2 ∧ addr.2 < ptr + data.length then
      some (data.getD (addr.2 - ptr) 0)
    else none
  | _, _ => none

/-- The data of the most recent write in `ops` covering address `addr`
(the value written to that cell), if any. -/
def lastWriteTo : List Op → Nat × Nat → Option F
  | [], _ => none
  | op :: rest, addr =>
    match lastWriteTo rest addr with
    | some v => some v
    | none => writeAt op addr

/-- The store invariant: the clock is positive and every recorded cell's
last-access timestamp is strictly below the clock. -/
def MemInv (c : MemoryController) : Prop :=
  0 < c.memory.timestamp ∧ ∀ e ∈ c.memory.cells, e.2.2 < c.memory.timestamp

/-- Witness session for C1. -/
def c1Ops : List Op := [Op.opWrite 1 0 [5]]

/-- Controller state after the C1 witness session. -/
def c1Ctrl : MemoryController × List (Nat × Nat) :=
  (execOps (MemoryController.with_volatile_memory 3) c1Ops).getD
    (MemoryController.with_volatile_memory 3, [])

/-- Result of the C1 witness read. -/
def c1Read : MemoryReadRecord × MemoryController :=
  (c1Ctrl.1.read 1 1 0).getD
    ({ address_space := 0, pointer := 0, timestamp := 0, prev_timestamp := 0, data := [] },
     c1Ctrl.1)

/-! ## Evaluation lemmas for the controller operations -/

/-- Evaluating an in-bounds `read` to a non-zero address space. -/
theorem read_eq_some (c : MemoryController) (n addr_space ptr : Nat)
    (ha : addr_space ≠ 0) (hp : ptr < 2 ^ c.pointer_max_bits) :
    c.read n addr_space ptr =
      some
        ({ address_space := addr_space
           pointer := ptr
           timestamp := c.memory.timestamp
           prev_timestamp := c.memory.maxTs addr_space ptr n
           data := c.memory.readData addr_space ptr n },
         { c with
           memory :=
             { touchCells addr_space ptr c.memory.timestamp n c.memory with
               timestamp := c.memory.timestamp + 1 }
           interface_chip := touchRange c.interface_chip addr_space ptr n }) := by
  unfold MemoryController.read
  rw [if_neg (by simp [ha, hp]), if_neg ha]
  simp [Memory.read]

/-- Evaluating a `read::<1>` from address space 0. -/
theorem read_as0_eq_some (c : MemoryController) (ptr : Nat) :
    c.read 1 0 ptr =
      some
        ({ address_space := 0
           pointer := ptr
           timestamp := c.memory.timestamp
           prev_timestamp := 0
           data := [ptr] },
         { c with memory := c.memory.incrementTimestamp }) := by
  unfold MemoryController.read
  simp [MemoryController.timestamp]

/-- Evaluating an in-bounds `write` to a non-zero address space. -/
theorem write_eq_some (c : MemoryController) (addr_space ptr : Nat) (data : List F)
    (ha : addr_space ≠ 0) (hp : ptr < 2 ^ c.pointer_max_bits) :
    c.write addr_space ptr data =
      some
        ({ address_space := addr_space
           pointer := ptr
           timestamp := c.memory.timestamp
           prev_timestamp := c.memory.maxTs addr_space ptr data.length
           data := data
           prev_data := c.memory.readData addr_space ptr data.length },
         { c with
           memory :=
             { timestamp := c.memory.timestamp + 1
               cells := writeCells addr_space ptr c.memory.timestamp data c.memory.cells }
           interface_chip := touchRange c.interface_chip addr_space ptr data.length }) := by
  unfold MemoryController.write
  rw [if_neg ha, if_neg (by simp [hp])]
  simp [Memory.write]

/-! ## Theorems -/

/-- C4: for every pointer `p`, `read::<1>(address_space = 0, p)` succeeds
with no prior write and no bounds requirement on `p`, returns data `[p]`
with `prev_timestamp = 0`, advances the clock by exactly 1, and leaves
the memory store, adapter inventory and boundary bookkeeping
unchanged. -/
theorem read_as0_immediate (c : MemoryController) (p : F) :
    ∃ rec c',
      c.read 1 0 p = some (rec, c') ∧
      rec.data = [p] ∧ rec.prev_timestamp = 0 ∧ rec.timestamp = c.timestamp ∧
      c'.timestamp = c.timestamp + 1 ∧
      c'.memory.cells = c.memory.cells ∧
      c'.access_adapters = c.access_adapters ∧
      c'.interface_chip = c.interface_chip ∧
      c'.final_state = c.final_state := by
  refine ⟨_, _, read_as0_eq_some c p, ?_, ?_, ?_, ?_, ?_, ?_, ?_, ?_⟩ <;>
    simp [MemoryController.timestamp, Memory.incrementTimestamp]

/-- C5: batched (`N ≠ 1`) reads targeting address space 0 abort fatally,
and writes targeting address space 0 abort fatally for every size. -/
theorem zero_as_access_fatal (c : MemoryController) (n : Nat) (p : F) (data : List F)
    (hn : n ≠ 1) :
    c.read n 0 p = none ∧ c.write 0 p data = none := by
  constructor
  · simp [MemoryController.read, hn]
  · simp [MemoryController.write]

/-- Witness for C5 at `n = 2`, `p = 5`, `data = [1]`. -/
theorem zero_as_access_fatal_witness :
    (MemoryController.with_volatile_memory 3).read 2 0 5 = none ∧
      (MemoryController.with_volatile_memory 3).write 0 5 [1] = none :=
  zero_as_access_fatal (MemoryController.with_volatile_memory 3) 2 5 [1] (by decide)

/-- C6: for non-zero address spaces, reads and writes with
`pointer ≥ 2 ^ pointer_max_bits` abort fatally, in-bounds pointers pass
the bounds assertion, and in particular a write at
`pointer = 2 ^ pointer_max_bits` fails. -/
theorem access_bounds (c : MemoryController) (n addr_space ptr : Nat) (data : List F)
    (ha : addr_space ≠ 0) :
    (2 ^ c.pointer_max_bits ≤ ptr →
      c.read n addr_space ptr = none ∧ c.write addr_space ptr data = none) ∧
    (ptr < 2 ^ c.pointer_max_bits →
      (c.read n addr_space ptr).isSome ∧ (c.write addr_space ptr data).isSome) ∧
    c.write addr_space (2 ^ c.pointer_max_bits) data = none := by
  refine ⟨fun hge => ⟨?_, ?_⟩, fun hlt => ⟨?_, ?_⟩, ?_⟩
  · simp [MemoryController.read, ha, Nat.not_lt.2 hge]
  · simp [MemoryController.write, ha, Nat.not_lt.2 hge]
  · simp [read_eq_some c n addr_space ptr ha hlt]
  · simp [write_eq_some c addr_space ptr data ha hlt]
  · simp [MemoryController.write, ha, Nat.lt_irrefl]

/-- Witness for C6 at `pointer_max_bits = 3`, `ptr = 8` and `ptr = 2`. -/
theorem access_bounds_witness :
    ((MemoryController.with_volatile_memory 3).read 1 1 8 = none ∧
      (MemoryController.with_volatile_memory 3).write 1 8 [4] = none) ∧
    ((MemoryController.with_volatile_memory 3).read 1 1 2).isSome ∧
    ((MemoryController.with_volatile_memory 3).write 1 2 [4]).isSome := by
  have h := access_bounds (MemoryController.with_volatile_memory 3) 1 1 8 [4] (by decide)
  have h2 := access_bounds (MemoryController.with_volatile_memory 3) 1 1 2 [4] (by decide)
  exact ⟨h.1 (by decide), h2.2.1 (by decide)⟩

/-- C3: from any controller state, `write(1, 0, [5])` followed by
`read::<1>(1, 0)` returns `[5]`, and the clock after both calls is the
clock before plus 2 (one tick per access). -/
theorem write_then_read_concrete (c : MemoryController) :
    ∃ wrec c1 rec c2,
      c.write 1 0 [5] = some (wrec, c1) ∧
      c1.read 1 1 0 = some (rec, c2) ∧
      rec.data = [5] ∧
      c2.timestamp = c.timestamp + 2 := by
  have hpos : 0 < 2 ^ c.pointer_max_bits := Nat.pos_pow_of_pos _ (by decide)
  have hw := write_eq_some c 1 0 [5] (by decide) hpos
  refine ⟨_, _, _, _, hw, read_eq_some _ 1 1 0 (by decide) hpos, ?_, ?_⟩
  · simp [Memory.readData, Memory.get, writeCells, List.ofFn_succ, List.ofFn_zero,
      List.find?]
  · simp [MemoryController.timestamp]

/-- After a successful `finalize`, the controller is in the Finalized
state. -/
theorem finalize_sets_final_state (c : MemoryController) (hasher : Bool)
    (r : Option Equipartition) (c' : MemoryController)
    (h : c.finalize hasher = some (r, c')) : c'.final_state.isSome := by
  unfold MemoryController.finalize at h
  by_cases hf : c.final_state.isSome
  · rw [if_pos hf] at h
    exact absurd h (by simp)
  · rw [if_neg hf] at h
    cases hic : c.interface_chip with
    | volatile touched =>
      rw [hic] at h
      simp only [Option.some.injEq, Prod.mk.injEq] at h
      rw [← h.2]
      rfl
    | persistent labels init =>
      rw [hic] at h
      by_cases hh : hasher
      · rw [if_neg (by simp [hh])] at h
        simp only [Option.some.injEq, Prod.mk.injEq] at h
        rw [← h.2]
        rfl
      · rw [if_pos (by simp [hh])] at h
        exact absurd h (by simp)

/-- C7: `finalize` aborts fatally on a second invocation; the first call
on a persistent controller (with a hasher) returns the final
equipartition and on a volatile controller returns `None`. -/
theorem finalize_once :
    (∀ (c : MemoryController) (hasher : Bool) (r : Option Equipartition)
        (c' : MemoryController) (hasher2 : Bool),
      c.finalize hasher = some (r, c') → c'.finalize hasher2 = none) ∧
    (∀ (bits : Nat) (init : Equipartition),
      ((MemoryController.with_persistent_memory bits init).finalize true).map
          (fun r => r.1.isSome) = some true) ∧
    (∀ (bits : Nat) (hasher : Bool),
      ((MemoryController.with_volatile_memory bits).finalize hasher).map
          (fun r => r.1) = some none) := by
  refine ⟨fun c hasher r c' hasher2 h => ?_, fun bits init => ?_, fun bits hasher => ?_⟩
  · unfold MemoryController.finalize
    rw [if_pos (finalize_sets_final_state c hasher r c' h)]
  · unfold MemoryController.finalize
    rw [if_neg (by simp [MemoryController.with_persistent_memory])]
    simp [MemoryController.with_persistent_memory]
  · unfold MemoryController.finalize
    rw [if_neg (by simp [MemoryController.with_volatile_memory])]
    simp [MemoryController.with_volatile_memory]

/-- Witness for C7: finalizing a fresh volatile controller twice fails on
the second call. -/
theorem finalize_once_witness :
    (((MemoryController.with_volatile_memory 3).finalize true).getD
        (none, MemoryController.with_volatile_memory 3)).2.finalize true = none :=
  finalize_once.1 (MemoryController.with_volatile_memory 3) true
    (((MemoryController.with_volatile_memory 3).finalize true).getD
        (none, MemoryController.with_volatile_memory 3)).1
    (((MemoryController.with_volatile_memory 3).finalize true).getD
        (none, MemoryController.with_volatile_memory 3)).2
    true (by rfl)

/-- C8: `set_initial_memory` aborts once the clock has advanced past its
starting value; under the Volatile interface it aborts for non-empty
memory and is a successful no-op for empty memory; under the Persistent
interface it replaces `initial_memory` and rebuilds the store from it. -/
theorem set_initial_memory_spec :
    (∀ (c : MemoryController) (mem : Equipartition),
      INITIAL_TIMESTAMP + 1 < c.timestamp → c.set_initial_memory mem = none) ∧
    (∀ (c : MemoryController) (mem : Equipartition) (touched : List (Nat × Nat)),
      c.interface_chip = .volatile touched → mem ≠ [] →
        c.set_initial_memory mem = none) ∧
    (∀ (c : MemoryController) (touched : List (Nat × Nat)),
      c.interface_chip = .volatile touched → c.timestamp ≤ INITIAL_TIMESTAMP + 1 →
        c.set_initial_memory [] = some c) ∧
    (∀ (c : MemoryController) (mem : Equipartition) (labels : List (Nat × Nat))
        (init : Equipartition),
      c.interface_chip = .persistent labels init → c.timestamp ≤ INITIAL_TIMESTAMP + 1 →
        c.set_initial_memory mem =
          some
            { c with
              interface_chip := .persistent labels mem
              memory := Memory.new CHUNK mem }) := by
  refine ⟨fun c mem hts => ?_, fun c mem touched hic hne => ?_,
    fun c touched hic hts => ?_, fun c mem labels init hic hts => ?_⟩
  · unfold MemoryController.set_initial_memory
    rw [if_pos hts]
  · unfold MemoryController.set_initial_memory
    by_cases hts : INITIAL_TIMESTAMP + 1 < c.timestamp
    · rw [if_pos hts]
    · rw [if_neg hts, hic]
      rw [if_pos (by simp [List.isEmpty_iff, hne])]
  · unfold MemoryController.set_initial_memory
    rw [if_neg (by omega), hic]
    rw [if_neg (by simp)]
  · unfold MemoryController.set_initial_memory
    rw [if_neg (by omega), hic]

/-- Witness for C8: on a fresh volatile controller, a non-empty initial
memory is rejected and the empty one is a no-op. -/
theorem set_initial_memory_spec_witness :
    (MemoryController.with_volatile_memory 3).set_initial_memory [((1, 0), [1])] = none ∧
      (MemoryController.with_volatile_memory 3).set_initial_memory [] =
        some (MemoryController.with_volatile_memory 3) :=
  ⟨set_initial_memory_spec.2.1 (MemoryController.with_volatile_memory 3)
      [((1, 0), [1])] [] (by rfl) (by simp),
    set_initial_memory_spec.2.2.1 (MemoryController.with_volatile_memory 3)
      [] (by rfl) (by decide)⟩

/-- C10: `make_read_aux_cols` aborts fatally on records whose address
space is 0 (and succeeds otherwise), while
`make_read_or_immediate_aux_cols` converts records of any address
space. -/
theorem make_read_aux_cols_as0 :
    (∀ read : MemoryReadRecord, read.address_space = 0 →
      make_read_aux_cols read = none) ∧
    (∀ read : MemoryReadRecord, read.address_space ≠ 0 →
      make_read_aux_cols read = some { prev_timestamp := read.prev_timestamp }) ∧
    (∀ read : MemoryReadRecord,
      make_read_or_immediate_aux_cols read =
        { prev_timestamp := read.prev_timestamp
          is_zero := if read.address_space = 0 then 1 else 0 }) := by
  refine ⟨fun read h0 => ?_, fun read h0 => ?_, fun read => rfl⟩
  · simp [make_read_aux_cols, h0]
  · simp [make_read_aux_cols, h0]

/-! ## Invariant lemmas for timestamps -/

/-- Cells seeded by `Memory.new` carry the initial timestamp. -/
theorem mem_new_cells_ts (n : Nat) (init : Equipartition) :
    ∀ e ∈ (Memory.new n init).cells, e.2.2 = INITIAL_TIMESTAMP := by
  unfold Memory.new
  induction init with
  | nil => simp
  | cons entry rest ih =>
    intro e he
    simp only [List.foldr_cons, List.mem_append] at he
    rcases he with he | he
    · obtain ⟨i, hi⟩ := (List.mem_ofFn _ _).mp he
      rw [← hi]
    · exact ih e he

/-- A cell's last-access timestamp is strictly below the clock when the
invariant holds. -/
theorem cellTs_lt (m : Memory) (ht : 0 < m.timestamp)
    (hc : ∀ e ∈ m.cells, e.2.2 < m.timestamp) (a p : Nat) :
    m.cellTs a p < m.timestamp := by
  unfold Memory.cellTs
  cases hfind : m.cells.find? (fun q => q.1 = (a, p)) with
  | none => exact ht
  | some e => exact hc e (List.mem_of_find?_eq_some hfind)

/-- The previous timestamp of a block access is strictly below the
clock when the invariant holds. -/
theorem maxTs_lt (m : Memory) (ht : 0 < m.timestamp)
    (hc : ∀ e ∈ m.cells, e.2.2 < m.timestamp) (a p : Nat) :
    ∀ n, m.maxTs a p n < m.timestamp := by
  intro n
  induction n with
  | zero => exact ht
  | succ k ih => exact Nat.max_lt.2 ⟨ih, cellTs_lt m ht hc a (p + k)⟩

/-- `touchCells` keeps the clock. -/
theorem touchCells_timestamp (a : Nat) :
    ∀ (k p t : Nat) (m : Memory), (touchCells a p t k m).timestamp = m.timestamp := by
  intro k
  induction k with
  | zero => intro p t m; rfl
  | succ j ih => intro p t m; exact ih (p + 1) t _

/-- Every cell after `touchCells` is an old cell or carries timestamp
`t`. -/
theorem touchCells_cells_mem (a : Nat) :
    ∀ (k p t : Nat) (m : Memory) (e), e ∈ (touchCells a p t k m).cells →
      e ∈ m.cells ∨ e.2.2 = t := by
  intro k
  induction k with
  | zero => intro p t m e he; exact Or.inl he
  | succ j ih =>
    intro p t m e he
    rcases ih (p + 1) t _ e he with h | h
    · rcases List.mem_cons.1 h with h' | h'
      · right; rw [h']
      · exact Or.inl h'
    · exact Or.inr h

/-- Every cell after `writeCells` is an old cell or carries timestamp
`t`. -/
theorem writeCells_mem (a : Nat) :
    ∀ (data : List F) (p t : Nat) (cells) (e),
      e ∈ writeCells a p t data cells → e ∈ cells ∨ e.2.2 = t := by
  intro data
  induction data with
  | nil => intro p t cells e he; exact Or.inl he
  | cons v rest ih =>
    intro p t cells e he
    rcases ih (p + 1) t _ e he with h | h
    · rcases List.mem_cons.1 h with h' | h'
      · right; rw [h']
      · exact Or.inl h'
    · exact Or.inr h

/-- One `read` call: the emitted record is well-ordered, the clock does
not decrease, and the invariant persists. -/
theorem read_step (c : MemoryController) (hinv : MemInv c) (n addr_space ptr : Nat)
    (rec : MemoryReadRecord) (c' : MemoryController)
    (h : c.read n addr_space ptr = some (rec, c')) :
    rec.prev_timestamp < rec.timestamp ∧ c.timestamp ≤ c'.timestamp ∧ MemInv c' := by
  obtain ⟨ht, hc⟩ := hinv
  by_cases ha : addr_space = 0
  · subst ha
    by_cases hn : n = 1
    · subst hn
      rw [read_as0_eq_some] at h
      simp only [Option.some.injEq, Prod.mk.injEq] at h
      obtain ⟨hrec, hc'⟩ := h
      subst hrec; subst hc'
      refine ⟨ht, Nat.le_succ _, Nat.succ_pos _, fun e he => ?_⟩
      exact Nat.lt_succ_of_lt (hc e he)
    · rw [MemoryController.read, if_neg (by simp), if_pos rfl, if_pos hn] at h
      exact absurd h (by simp)
  · by_cases hp : ptr < 2 ^ c.pointer_max_bits
    · rw [read_eq_some c n addr_space ptr ha hp] at h
      simp only [Option.some.injEq, Prod.mk.injEq] at h
      obtain ⟨hrec, hc'⟩ := h
      subst hrec; subst hc'
      refine ⟨maxTs_lt c.memory ht hc _ _ n, Nat.le_succ _, Nat.succ_pos _,
        fun e he => ?_⟩
      rcases touchCells_cells_mem addr_space n ptr c.memory.timestamp c.memory e he with
        hmem | hts
      · exact Nat.lt_succ_of_lt (hc e hmem)
      · rw [hts]; exact Nat.lt_succ_self _
    · rw [MemoryController.read, if_pos (by simp [ha, hp])] at h
      exact absurd h (by simp)

/-- One `write` call: the emitted record is well-ordered, the clock does
not decrease, and the invariant persists. -/
theorem write_step (c : MemoryController) (hinv : MemInv c) (addr_space ptr : Nat)
    (data : List F) (rec : MemoryWriteRecord) (c' : MemoryController)
    (h : c.write addr_space ptr data = some (rec, c')) :
    rec.prev_timestamp < rec.timestamp ∧ c.timestamp ≤ c'.timestamp ∧ MemInv c' := by
  obtain ⟨ht, hc⟩ := hinv
  by_cases ha : addr_space = 0
  · rw [MemoryController.write, if_pos ha] at h
    exact absurd h (by simp)
  · by_cases hp : ptr < 2 ^ c.pointer_max_bits
    · rw [write_eq_some c addr_space ptr data ha hp] at h
      simp only [Option.some.injEq, Prod.mk.injEq] at h
      obtain ⟨hrec, hc'⟩ := h
      subst hrec; subst hc'
      refine ⟨maxTs_lt c.memory ht hc _ _ _, Nat.le_succ _, Nat.succ_pos _,
        fun e he => ?_⟩
      rcases writeCells_mem addr_space data ptr c.memory.timestamp c.memory.cells e he with
        hmem | hts
      · exact Nat.lt_succ_of_lt (hc e hmem)
      · rw [hts]; exact Nat.lt_succ_self _
    · rw [MemoryController.write, if_neg ha, if_pos hp] at h
      exact absurd h (by simp)

/-- One operation: emitted records are well-ordered, the clock does not
decrease, and the invariant persists. -/
theorem execOp_step (c : MemoryController) (hinv : MemInv c) (op : Op)
    (c' : MemoryController) (recs : List (Nat × Nat))
    (h : execOp c op = some (c', recs)) :
    (∀ r ∈ recs, r.1 < r.2) ∧ c.timestamp ≤ c'.timestamp ∧ MemInv c' := by
  cases op with
  | opRead n addr_space ptr =>
    rw [execOp] at h
    obtain ⟨⟨rec, c₁⟩, hread, hmap⟩ := Option.map_eq_some'.1 h
    simp only [Prod.mk.injEq] at hmap
    obtain ⟨hc', hrecs⟩ := hmap
    subst hc'; subst hrecs
    obtain ⟨h1, h2, h3⟩ := read_step c hinv n addr_space ptr rec c₁ hread
    exact ⟨by simpa using h1, h2, h3⟩
  | opWrite addr_space ptr data =>
    rw [execOp] at h
    obtain ⟨⟨rec, c₁⟩, hwrite, hmap⟩ := Option.map_eq_some'.1 h
    simp only [Prod.mk.injEq] at hmap
    obtain ⟨hc', hrecs⟩ := hmap
    subst hc'; subst hrecs
    obtain ⟨h1, h2, h3⟩ := write_step c hinv addr_space ptr data rec c₁ hwrite
    exact ⟨by simpa using h1, h2, h3⟩
  | opIncr =>
    rw [execOp] at h
    simp only [Option.some.injEq, Prod.mk.injEq] at h
    obtain ⟨hc', hrecs⟩ := h
    subst hc'; subst hrecs
    obtain ⟨ht, hc⟩ := hinv
    exact ⟨by simp, Nat.le_succ _, Nat.succ_pos _,
      fun e he => Nat.lt_succ_of_lt (hc e he)⟩
  | opIncrBy change =>
    rw [execOp] at h
    simp only [Option.some.injEq, Prod.mk.injEq] at h
    obtain ⟨hc', hrecs⟩ := h
    subst hc'; subst hrecs
    obtain ⟨ht, hc⟩ := hinv
    exact ⟨by simp, Nat.le_add_right _ _, Nat.lt_of_lt_of_le ht (Nat.le_add_right _ _),
      fun e he => Nat.lt_of_lt_of_le (hc e he) (Nat.le_add_right _ _)⟩

/-- A session: emitted records are well-ordered, the clock does not
decrease, and the invariant persists. -/
theorem execOps_monotone :
    ∀ (ops : List Op) (c : MemoryController), MemInv c →
      ∀ (c' : MemoryController) (recs : List (Nat × Nat)),
        execOps c ops = some (c', recs) →
        (∀ r ∈ recs, r.1 < r.2) ∧ c.timestamp ≤ c'.timestamp ∧ MemInv c' := by
  intro ops
  induction ops with
  | nil =>
    intro c hinv c' recs h
    rw [execOps] at h
    simp only [Option.some.injEq, Prod.mk.injEq] at h
    obtain ⟨hc', hrecs⟩ := h
    subst hc'; subst hrecs
    exact ⟨by simp, Nat.le_refl _, hinv⟩
  | cons op rest ih =>
    intro c hinv c' recs h
    rw [execOps] at h
    cases h1 : execOp c op with
    | none => rw [h1] at h; exact absurd h (by simp)
    | some p1 =>
      rw [h1, Option.some_bind] at h
      obtain ⟨p2, h2, hmap⟩ := Option.map_eq_some'.1 h
      simp only [Prod.mk.injEq] at hmap
      obtain ⟨hc', hrecs⟩ := hmap
      obtain ⟨ha1, ha2, ha3⟩ := execOp_step c hinv op p1.1 p1.2 (by rw [h1])
      obtain ⟨hb1, hb2, hb3⟩ := ih p1.1 ha3 p2.1 p2.2 (by rw [h2])
      subst hc'; subst hrecs
      refine ⟨fun r hr => ?_, Nat.le_trans ha2 hb2, hb3⟩
      rcases List.mem_append.1 hr with hr | hr
      · exact ha1 r hr
      · exact hb1 r hr

/-! ## Value-tracking lemmas for consistency -/

/-- Lookup after prepending one cell. -/
theorem get_cells_cons (t : Nat) (key : Nat × Nat) (v ts : Nat)
    (cells : List ((Nat × Nat) × (F × Nat))) (a p : Nat) :
    Memory.get ⟨t, (key, (v, ts)) :: cells⟩ a p =
      if key = (a, p) then v else Memory.get ⟨t, cells⟩ a p := by
  unfold Memory.get
  by_cases h : key = (a, p)
  · rw [List.find?_cons_of_pos _ (by simp [h]), if_pos h]
  · rw [List.find?_cons_of_neg _ (by simp [h]), if_neg h]

/-- `touchCells` keeps every cell's value. -/
theorem touchCells_get (a : Nat) :
    ∀ (k p t : Nat) (m : Memory) (a' p' : Nat),
      (touchCells a p t k m).get a' p' = m.get a' p' := by
  intro k
  induction k with
  | zero => intro p t m a' p'; rfl
  | succ j ih =>
    intro p t m a' p'
    rw [touchCells, ih]
    show Memory.get ⟨m.timestamp, ((a, p), (m.get a p, t)) :: m.cells⟩ a' p' = _
    rw [get_cells_cons]
    by_cases h : (a, p) = (a', p')
    · rw [if_pos h]
      obtain ⟨h1, h2⟩ := Prod.mk.inj h
      rw [h1, h2]
    · rw [if_neg h]

/-- Lookup after `writeCells`: covered cells hold the written data, the
rest are untouched. -/
theorem writeCells_get (a t t' : Nat) :
    ∀ (data : List F) (p : Nat) (cells : List ((Nat × Nat) × (F × Nat))) (a' p' : Nat),
      Memory.get ⟨t', writeCells a p t data cells⟩ a' p' =
        if a' = a ∧ p ≤ p' ∧ p' < p + data.length then data.getD (p' - p) 0
        else Memory.get ⟨t', cells⟩ a' p' := by
  intro data
  induction data with
  | nil =>
    intro p cells a' p'
    rw [writeCells, if_neg (by simp)]
  | cons v rest ih =>
    intro p cells a' p'
    rw [writeCells, ih]
    have hcons := get_cells_cons t' (a, p) v t cells a' p'
    simp only [List.length_cons]
    by_cases h1 : a' = a ∧ p + 1 ≤ p' ∧ p' < p + 1 + rest.length
    · rw [if_pos h1, if_pos (by omega)]
      have hp' : p' - p = (p' - (p + 1)) + 1 := by omega
      rw [hp', List.getD_cons_succ]
    · rw [if_neg h1, hcons]
      by_cases h2 : (a, p) = (a', p')
      · obtain ⟨ha, hp⟩ := Prod.mk.inj h2
        rw [if_pos h2, if_pos (by omega)]
        rw [← hp, Nat.sub_self, List.getD_cons_zero]
      · have h2' : ¬(a = a' ∧ p = p') := fun hh => h2 (by rw [hh.1, hh.2])
        rw [if_neg h2, if_neg (by omega)]

/-- A successful `read` keeps every cell's value. -/
theorem read_preserves_get (c : MemoryController) (n addr_space ptr : Nat)
    (rec : MemoryReadRecord) (c' : MemoryController)
    (h : c.read n addr_space ptr = some (rec, c')) (a p : Nat) :
    c'.memory.get a p = c.memory.get a p := by
  by_cases ha : addr_space = 0
  · subst ha
    by_cases hn : n = 1
    · subst hn
      rw [read_as0_eq_some] at h
      simp only [Option.some.injEq, Prod.mk.injEq] at h
      obtain ⟨_, hc'⟩ := h
      subst hc'
      rfl
    · rw [MemoryController.read, if_neg (by simp), if_pos rfl, if_pos hn] at h
      exact absurd h (by simp)
  · by_cases hp : ptr < 2 ^ c.pointer_max_bits
    · rw [read_eq_some c n addr_space ptr ha hp] at h
      simp only [Option.some.injEq, Prod.mk.injEq] at h
      obtain ⟨_, hc'⟩ := h
      subst hc'
      exact touchCells_get addr_space n ptr c.memory.timestamp c.memory a p
    · rw [MemoryController.read, if_pos (by simp [ha, hp])] at h
      exact absurd h (by simp)

/-- A successful `write` updates exactly the covered cells. -/
theorem write_get (c : MemoryController) (addr_space ptr : Nat) (data : List F)
    (rec : MemoryWriteRecord) (c' : MemoryController)
    (h : c.write addr_space ptr data = some (rec, c')) (a p : Nat) :
    c'.memory.get a p =
      if a = addr_space ∧ ptr ≤ p ∧ p < ptr + data.length then data.getD (p - ptr) 0
      else c.memory.get a p := by
  by_cases ha : addr_space = 0
  · rw [MemoryController.write, if_pos ha] at h
    exact absurd h (by simp)
  · by_cases hp : ptr < 2 ^ c.pointer_max_bits
    · rw [write_eq_some c addr_space ptr data ha hp] at h
      simp only [Option.some.injEq, Prod.mk.injEq] at h
      obtain ⟨_, hc'⟩ := h
      subst hc'
      exact writeCells_get addr_space c.memory.timestamp (c.memory.timestamp + 1) data ptr
        c.memory.cells a p
    · rw [MemoryController.write, if_neg ha, if_pos hp] at h
      exact absurd h (by simp)

/-- One operation changes a cell exactly to the value the operation
writes there, if any. -/
theorem execOp_get (c : MemoryController) (op : Op) (c₁ : MemoryController)
    (r : List (Nat × Nat)) (h : execOp c op = some (c₁, r)) (a p : Nat) :
    c₁.memory.get a p = (writeAt op (a, p)).getD (c.memory.get a p) := by
  cases op with
  | opRead n addr_space ptr =>
    rw [execOp] at h
    obtain ⟨⟨rec, cr⟩, hread, hmap⟩ := Option.map_eq_some'.1 h
    simp only [Prod.mk.injEq] at hmap
    obtain ⟨hc₁, _⟩ := hmap
    subst hc₁
    simp only [writeAt, Option.getD_none]
    exact read_preserves_get c n addr_space ptr rec cr hread a p
  | opWrite addr_space ptr data =>
    rw [execOp] at h
    obtain ⟨⟨rec, cr⟩, hwrite, hmap⟩ := Option.map_eq_some'.1 h
    simp only [Prod.mk.injEq] at hmap
    obtain ⟨hc₁, _⟩ := hmap
    subst hc₁
    rw [write_get c addr_space ptr data rec cr hwrite a p]
    simp only [writeAt]
    by_cases hcond : a = addr_space ∧ ptr ≤ p ∧ p < ptr + data.length
    · rw [if_pos hcond, if_pos hcond, Option.getD_some]
    · rw [if_neg hcond, if_neg hcond, Option.getD_none]
  | opIncr =>
    rw [execOp] at h
    simp only [Option.some.injEq, Prod.mk.injEq] at h
    obtain ⟨hc₁, _⟩ := h
    subst hc₁
    simp only [writeAt, Option.getD_none]
    rfl
  | opIncrBy change =>
    rw [execOp] at h
    simp only [Option.some.injEq, Prod.mk.injEq] at h
    obtain ⟨hc₁, _⟩ := h
    subst hc₁
    simp only [writeAt, Option.getD_none]
    rfl

/-- After a session, a cell holds the most recent value written to it,
or its starting value if the session never wrote it. -/
theorem execOps_get :
    ∀ (ops : List Op) (c c' : MemoryController) (recs : List (Nat × Nat)),
      execOps c ops = some (c', recs) → ∀ a p,
        c'.memory.get a p = (lastWriteTo ops (a, p)).getD (c.memory.get a p) := by
  intro ops
  induction ops with
  | nil =>
    intro c c' recs h a p
    rw [execOps] at h
    simp only [Option.some.injEq, Prod.mk.injEq] at h
    obtain ⟨hc', _⟩ := h
    subst hc'
    rfl
  | cons op rest ih =>
    intro c c' recs h a p
    rw [execOps] at h
    cases h1 : execOp c op with
    | none => rw [h1] at h; exact absurd h (by simp)
    | some p1 =>
      rw [h1, Option.some_bind] at h
      obtain ⟨p2, h2, hmap⟩ := Option.map_eq_some'.1 h
      simp only [Prod.mk.injEq] at hmap
      obtain ⟨hc', _⟩ := hmap
      subst hc'
      have e1 := execOp_get c op p1.1 p1.2 (by rw [h1]) a p
      have e2 := ih p1.1 p2.1 p2.2 (by rw [h2]) a p
      rw [lastWriteTo]
      cases hlw : lastWriteTo rest (a, p) with
      | some v =>
        rw [hlw] at e2
        exact e2
      | none =>
        rw [hlw] at e2
        rw [Option.getD_none] at e2
        exact e2.trans e1

/-- The value slice of a block read. -/
theorem readData_getD (m : Memory) (a p n i : Nat) (hi : i < n) :
    (m.readData a p n).getD i 0 = m.get a (p + i) := by
  unfold Memory.readData
  rw [List.getD_eq_getElem _ _ (by simpa using hi), List.getElem_ofFn]

/-- C1: after any successful session starting from a fresh volatile
controller, a `read::<N>` at a non-zero address space returns, for each
covered cell, the data of the most recent prior write covering that
cell, or zero if it was never written. -/
theorem read_returns_last_write (bits : Nat) (ops : List Op) (c' : MemoryController)
    (recs : List (Nat × Nat))
    (hexec : execOps (MemoryController.with_volatile_memory bits) ops = some (c', recs))
    (n addr_space ptr : Nat) (ha : addr_space ≠ 0) (rec : MemoryReadRecord)
    (c'' : MemoryController) (hread : c'.read n addr_space ptr = some (rec, c''))
    (i : Nat) (hi : i < n) :
    rec.data.getD i 0 = (lastWriteTo ops (addr_space, ptr + i)).getD 0 := by
  by_cases hp : ptr < 2 ^ c'.pointer_max_bits
  · rw [read_eq_some c' n addr_space ptr ha hp] at hread
    simp only [Option.some.injEq, Prod.mk.injEq] at hread
    obtain ⟨hrec, _⟩ := hread
    subst hrec
    show (c'.memory.readData addr_space ptr n).getD i 0 = _
    rw [readData_getD c'.memory addr_space ptr n i hi]
    rw [execOps_get ops (MemoryController.with_volatile_memory bits) c' recs hexec
      addr_space (ptr + i)]
    rfl
  · rw [MemoryController.read, if_pos (by simp [ha, hp])] at hread
    exact absurd hread (by simp)

/-- Witness for C1: after `write(1, 0, [5])`, the read at `(1, 0)` sees
the last written value. -/
theorem read_returns_last_write_witness :
    c1Read.1.data.getD 0 0 = (lastWriteTo c1Ops (1, 0 + 0)).getD 0 :=
  read_returns_last_write 3 c1Ops c1Ctrl.1 c1Ctrl.2 (by rfl) 1 1 0 (by decide)
    c1Read.1 c1Read.2 (by rfl) 0 (by decide)

/-- C2: every emitted read/write record satisfies
`prev_timestamp < timestamp`, and the clock never decreases across a
session of reads, writes and timestamp increments, starting from either
constructor. -/
theorem records_timestamp_monotone :
    (∀ bits : Nat, MemInv (MemoryController.with_volatile_memory bits)) ∧
    (∀ (bits : Nat) (init : Equipartition),
      MemInv (MemoryController.with_persistent_memory bits init)) ∧
    (∀ (c : MemoryController), MemInv c →
      ∀ (ops : List Op) (c' : MemoryController) (recs : List (Nat × Nat)),
        execOps c ops = some (c', recs) →
        (∀ r ∈ recs, r.1 < r.2) ∧ c.timestamp ≤ c'.timestamp ∧ MemInv c') := by
  refine ⟨fun bits => ⟨Nat.one_pos, ?_⟩, fun bits init => ⟨Nat.one_pos, ?_⟩,
    fun c hinv ops c' recs h => execOps_monotone ops c hinv c' recs h⟩
  · intro e he
    rw [mem_new_cells_ts 1 [] e he]
    exact Nat.one_pos
  · intro e he
    rw [mem_new_cells_ts CHUNK init e he]
    exact Nat.one_pos

/-- Witness for C2: a concrete three-operation session from a fresh
volatile controller. -/
theorem records_timestamp_monotone_witness :
    (MemoryController.with_volatile_memory 3).timestamp ≤
        (((execOps (MemoryController.with_volatile_memory 3)
            [Op.opWrite 1 0 [5], Op.opRead 1 1 0, Op.opIncr]).getD
          (MemoryController.with_volatile_memory 3, [])).1).timestamp := by
  exact (records_timestamp_monotone.2.2 (MemoryController.with_volatile_memory 3)
    (records_timestamp_monotone.1 3)
    [Op.opWrite 1 0 [5], Op.opRead 1 1 0, Op.opIncr]
    (((execOps (MemoryController.with_volatile_memory 3)
        [Op.opWrite 1 0 [5], Op.opRead 1 1 0, Op.opIncr]).getD
      (MemoryController.with_volatile_memory 3, [])).1)
    (((execOps (MemoryController.with_volatile_memory 3)
        [Op.opWrite 1 0 [5], Op.opRead 1 1 0, Op.opIncr]).getD
      (MemoryController.with_volatile_memory 3, [])).2)
    (by rfl)).2.1

/-- Witness for C10 at the record returned by the address-space-0 read
`read::<1>(0, 7)`. -/
theorem make_read_aux_cols_as0_witness :
    make_read_aux_cols
        { address_space := 0, pointer := 7, timestamp := 1, prev_timestamp := 0,
          data := [7] } = none :=
  make_read_aux_cols_as0.1
    { address_space := 0, pointer := 7, timestamp := 1, prev_timestamp := 0, data := [7] }
    (by rfl)

/-! ## Equipartition round-trip lemmas -/

/-- `List.getD` after `List.set`. -/
theorem list_getD_set :
    ∀ (l : List F) (i j : Nat) (w : F),
      (l.set i w).getD j 0 = if i = j ∧ i < l.length then w else l.getD j 0 := by
  intro l
  induction l with
  | nil => intro i j w; simp
  | cons x xs ih =>
    intro i j w
    cases i with
    | zero =>
      cases j with
      | zero => simp
      | succ j' => simp
    | succ i' =>
      cases j with
      | zero => simp
      | succ j' =>
        simp only [List.set, List.getD_cons_succ, List.length_cons]
        rw [ih]
        by_cases h : i' = j' ∧ i' < xs.length
        · rw [if_pos h, if_pos (by omega)]
        · rw [if_neg h, if_neg (by omega)]

/-- Equipartition lookup after prepending one block. -/
theorem ep_get_cons (k : Nat × Nat) (b : Block) (rest : Equipartition) (k' : Nat × Nat) :
    Equipartition.get ((k, b) :: rest) k' = if k = k' then some b else rest.get k' := by
  unfold Equipartition.get
  by_cases h : k = k'
  · rw [List.find?_cons_of_pos _ (by simp [h]), if_pos h]
    rfl
  · rw [List.find?_cons_of_neg _ (by simp [h]), if_neg h]

/-- `epInsert` preserves block lengths. -/
theorem EPwf_epInsert (n : Nat) (key : Nat × Nat) (shift : Nat) (w : F) :
    ∀ e : Equipartition, EPwf n e → EPwf n (epInsert n key shift w e) := by
  intro e
  induction e with
  | nil =>
    intro _ entry hentry
    rw [epInsert] at hentry
    rcases List.mem_singleton.1 hentry with hEq
    rw [hEq]
    simp
  | cons hd rest ih =>
    intro hwf entry hentry
    obtain ⟨k, b⟩ := hd
    rw [epInsert] at hentry
    by_cases hk : k = key
    · rw [if_pos hk] at hentry
      rcases List.mem_cons.1 hentry with hEq | hmem
      · rw [hEq]
        simp only [List.length_set]
        exact hwf (k, b) (List.mem_cons_self _ _)
      · exact hwf entry (List.mem_cons_of_mem _ hmem)
    · rw [if_neg hk] at hentry
      rcases List.mem_cons.1 hentry with hEq | hmem
      · rw [hEq]
        exact hwf (k, b) (List.mem_cons_self _ _)
      · exact ih (fun x hx => hwf x (List.mem_cons_of_mem _ hx)) entry hmem

/-- The key written by `epInsert` is present afterwards. -/
theorem ep_get_epInsert_self_isSome (n : Nat) (key : Nat × Nat) (shift : Nat) (w : F) :
    ∀ e : Equipartition, ((epInsert n key shift w e).get key).isSome := by
  intro e
  induction e with
  | nil =>
    rw [epInsert, ep_get_cons, if_pos rfl]
    rfl
  | cons hd rest ih =>
    obtain ⟨k, b⟩ := hd
    rw [epInsert]
    by_cases hk : k = key
    · rw [if_pos hk, ep_get_cons, if_pos hk]
      rfl
    · rw [if_neg hk, ep_get_cons, if_neg hk]
      exact ih

/-- Keys present before `epInsert` stay present. -/
theorem ep_get_epInsert_isSome_mono (n : Nat) (key : Nat × Nat) (shift : Nat) (w : F) :
    ∀ (e : Equipartition) (k' : Nat × Nat),
      ((e.get k').isSome) → ((epInsert n key shift w e).get k').isSome := by
  intro e
  induction e with
  | nil => intro k' h; exact absurd h (by simp [Equipartition.get])
  | cons hd rest ih =>
    intro k' h
    obtain ⟨k, b⟩ := hd
    rw [ep_get_cons] at h
    rw [epInsert]
    by_cases hk : k = key
    · rw [if_pos hk, ep_get_cons]
      by_cases hk' : k = k'
      · rw [if_pos hk']; rfl
      · rw [if_neg hk']
        rw [if_neg hk'] at h
        exact h
    · rw [if_neg hk, ep_get_cons]
      by_cases hk' : k = k'
      · rw [if_pos hk']; rfl
      · rw [if_neg hk']
        rw [if_neg hk'] at h
        exact ih k' h

/-- A present key's block is an entry of the equipartition. -/
theorem ep_get_mem (e : Equipartition) (k : Nat × Nat) (b : Block)
    (h : e.get k = some b) : (k, b) ∈ e := by
  unfold Equipartition.get at h
  cases hfind : e.find? (fun p => p.1 = k) with
  | none => rw [hfind] at h; exact absurd h (by simp)
  | some p =>
    rw [hfind] at h
    simp only [Option.map_some', Option.some.injEq] at h
    have hp : p.1 = k := by simpa using List.find?_some hfind
    have hmem := List.mem_of_find?_eq_some hfind
    have : (k, b) = p := by
      rw [← hp, ← h]
    rw [this]
    exact hmem

/-- `getD` over a zero block is zero. -/
theorem list_getD_replicate_zero (n j : Nat) : (List.replicate n (0 : F)).getD j 0 = 0 := by
  by_cases h : j < n
  · rw [List.getD_eq_getElem _ _ (by simpa using h), List.getElem_replicate]
  · rw [List.getD_eq_default _ _ (by simpa using Nat.le_of_not_lt h)]

/-- Lookup after `epInsert` in closed form. -/
theorem ep_get_epInsert (n : Nat) (key : Nat × Nat) (shift : Nat) (w : F) :
    ∀ (e : Equipartition) (k' : Nat × Nat),
      (epInsert n key shift w e).get k' =
        if k' = key then some (((e.get key).getD (List.replicate n 0)).set shift w)
        else e.get k' := by
  intro e
  induction e with
  | nil =>
    intro k'
    rw [epInsert, ep_get_cons]
    by_cases h : k' = key
    · rw [if_pos h.symm, if_pos h]
      rfl
    · rw [if_neg (fun hc => h hc.symm), if_neg h]
  | cons hd rest ih =>
    intro k'
    obtain ⟨k, b⟩ := hd
    rw [epInsert]
    by_cases hk : k = key
    · subst hk
      rw [if_pos rfl]
      by_cases h : k' = k
      · subst h
        rw [ep_get_cons, if_pos rfl, if_pos rfl, ep_get_cons, if_pos rfl]
        rfl
      · rw [ep_get_cons, if_neg (fun hc => h hc.symm), if_neg h, ep_get_cons,
          if_neg (fun hc => h hc.symm)]
    · rw [if_neg hk]
      by_cases h : k' = key
      · have hkk' : k ≠ k' := fun hc => hk (hc.trans h)
        rw [ep_get_cons, if_neg hkk', ih k', if_pos h, if_pos h, ep_get_cons, if_neg hk]
      · rw [ep_get_cons, ih k', if_neg h, if_neg h, ep_get_cons]

/-- `blockGet` when the label is present. -/
theorem blockGet_eq_of_get_some (n : Nat) (e : Equipartition) (a addr : Nat) (b : Block)
    (h : e.get (a, addr / n) = some b) : blockGet n e a addr = b.getD (addr % n) 0 := by
  unfold blockGet
  rw [h]

/-- `blockGet` when the label is absent. -/
theorem blockGet_eq_of_get_none (n : Nat) (e : Equipartition) (a addr : Nat)
    (h : e.get (a, addr / n) = none) : blockGet n e a addr = 0 := by
  unfold blockGet
  rw [h]

/-- Reconstruction after `epInsert`: the targeted slot holds the new
word, all other slots are unchanged. -/
theorem blockGet_epInsert (n : Nat) (key : Nat × Nat) (shift : Nat) (w : F)
    (hshift : shift < n) (e : Equipartition) (hwf : EPwf n e) (a addr : Nat) :
    blockGet n (epInsert n key shift w e) a addr =
      if (a, addr / n) = key ∧ addr % n = shift then w
      else blockGet n e a addr := by
  have hlen : ((e.get key).getD (List.replicate n 0)).length = n := by
    cases hob : e.get key with
    | some b =>
      rw [Option.getD_some]
      exact hwf (key, b) (ep_get_mem e key b hob)
    | none => rw [Option.getD_none, List.length_replicate]
  by_cases hkey : (a, addr / n) = key
  · have hlhs : blockGet n (epInsert n key shift w e) a addr =
        (((e.get key).getD (List.replicate n 0)).set shift w).getD (addr % n) 0 := by
      unfold blockGet
      rw [ep_get_epInsert, if_pos hkey]
    rw [hlhs, list_getD_set]
    by_cases hsh : addr % n = shift
    · rw [if_pos ⟨hsh.symm, by rw [hlen]; exact hshift⟩, if_pos ⟨hkey, hsh⟩]
    · rw [if_neg (fun hc => hsh hc.1.symm), if_neg (fun hc => hsh hc.2)]
      cases hob : e.get key with
      | some b =>
        rw [Option.getD_some,
          blockGet_eq_of_get_some n e a addr b (by rw [hkey]; exact hob)]
      | none =>
        rw [Option.getD_none, list_getD_replicate_zero,
          blockGet_eq_of_get_none n e a addr (by rw [hkey]; exact hob)]
  · have hlhs : blockGet n (epInsert n key shift w e) a addr = blockGet n e a addr := by
      unfold blockGet
      rw [ep_get_epInsert, if_neg hkey]
    rw [hlhs, if_neg (fun hc => hkey hc.1)]

/-- The conversion loop preserves block lengths. -/
theorem EPwf_foldl (n : Nat) :
    ∀ (image : MemoryImage) (acc : Equipartition),
      EPwf n acc → EPwf n (image.foldl (epStep n) acc) := by
  intro image
  induction image with
  | nil => intro acc h; exact h
  | cons e rest ih =>
    intro acc h
    rw [List.foldl_cons]
    exact ih (epStep n acc e)
      (EPwf_epInsert n (e.1.1, e.1.2 / n) (e.1.2 % n) e.2 acc h)

/-- The conversion loop keeps present keys present. -/
theorem foldl_isSome_mono (n : Nat) :
    ∀ (image : MemoryImage) (acc : Equipartition) (k : Nat × Nat),
      (acc.get k).isSome → ((image.foldl (epStep n) acc).get k).isSome := by
  intro image
  induction image with
  | nil => intro acc k h; exact h
  | cons e rest ih =>
    intro acc k h
    rw [List.foldl_cons]
    exact ih (epStep n acc e) k
      (ep_get_epInsert_isSome_mono n (e.1.1, e.1.2 / n) (e.1.2 % n) e.2 acc k h)

/-- Every image entry's label is present in the converted partition. -/
theorem foldl_mem_isSome (n : Nat) :
    ∀ (image : MemoryImage) (acc : Equipartition) (e : (Nat × Nat) × F), e ∈ image →
      ((image.foldl (epStep n) acc).get (e.1.1, e.1.2 / n)).isSome := by
  intro image
  induction image with
  | nil => intro acc e he; exact absurd he (List.not_mem_nil e)
  | cons hd rest ih =>
    intro acc e he
    rw [List.foldl_cons]
    rcases List.mem_cons.1 he with hEq | hmem
    · subst hEq
      exact foldl_isSome_mono n rest (epStep n acc e) (e.1.1, e.1.2 / n)
        (ep_get_epInsert_self_isSome n (e.1.1, e.1.2 / n) (e.1.2 % n) e.2 acc)
    · exact ih (epStep n acc hd) e hmem

/-- Reconstruction through the conversion loop recovers the image entry
covering each address, falling back to the accumulator. -/
theorem foldl_blockGet (n : Nat) (hn : 0 < n) :
    ∀ (image : MemoryImage) (acc : Equipartition), EPwf n acc →
      List.Pairwise (fun e1 e2 => e1.1 ≠ e2.1) image →
      ∀ (a addr : Nat),
        blockGet n (image.foldl (epStep n) acc) a addr =
          (imageGet image (a, addr)).getD (blockGet n acc a addr) := by
  intro image
  induction image with
  | nil => intro acc hwf hpair a addr; rfl
  | cons e rest ih =>
    intro acc hwf hpair a addr
    rw [List.foldl_cons]
    obtain ⟨hhead, htail⟩ := List.pairwise_cons.1 hpair
    rw [ih (epStep n acc e)
      (EPwf_epInsert n (e.1.1, e.1.2 / n) (e.1.2 % n) e.2 acc hwf) htail a addr]
    have hstep : blockGet n (epStep n acc e) a addr =
        if (a, addr) = e.1 then e.2 else blockGet n acc a addr := by
      show blockGet n (epInsert n (e.1.1, e.1.2 / n) (e.1.2 % n) e.2 acc) a addr = _
      rw [blockGet_epInsert n (e.1.1, e.1.2 / n) (e.1.2 % n) e.2
        (Nat.mod_lt _ hn) acc hwf a addr]
      by_cases hc : (a, addr) = e.1
      · have ha : a = e.1.1 := congrArg Prod.fst hc
        have haddr : addr = e.1.2 := congrArg Prod.snd hc
        rw [if_pos ⟨by rw [ha, haddr], by rw [haddr]⟩, if_pos hc]
      · rw [if_neg ?hns, if_neg hc]
        case hns =>
          intro hcond
          apply hc
          have ha : a = e.1.1 := congrArg Prod.fst hcond.1
          have hd : addr / n = e.1.2 / n := congrArg Prod.snd hcond.1
          have h2 := hcond.2
          have hd1 := Nat.div_add_mod addr n
          have hd2 := Nat.div_add_mod e.1.2 n
          rw [hd, h2] at hd1
          have haddr : addr = e.1.2 := hd1.symm.trans hd2
          rw [ha, haddr]
    rw [hstep]
    by_cases hc : (a, addr) = e.1
    · have hrest : imageGet rest (a, addr) = none := by
        unfold imageGet
        rw [List.find?_eq_none.2]
        · rfl
        · intro x hx
          simp only [decide_eq_true_eq]
          intro hxx
          rw [hc] at hxx
          exact hhead x hx hxx.symm
      rw [hrest, Option.getD_none, if_pos hc]
      unfold imageGet
      rw [List.find?_cons_of_pos _ (by simp [hc.symm])]
      rfl
    · rw [if_neg hc]
      unfold imageGet
      rw [List.find?_cons_of_neg _ (by simp; exact fun hxx => hc hxx.symm)]

/-- C9: for every `N ≥ 1` and sparse image with unique keys, the
conversion places each entry at key `(addr_space, addr / N)`, offset
`addr % N`, and reconstruction (`block[addr % N]` at label `addr / N`,
zero elsewhere) recovers the image exactly. -/
theorem memory_image_partition_roundtrip (n : Nat) (hn : 1 ≤ n) (image : MemoryImage)
    (huniq : List.Pairwise (fun e1 e2 => e1.1 ≠ e2.1) image) :
    (∀ e ∈ image,
      ((memory_image_to_equipartition n image).get (e.1.1, e.1.2 / n)).isSome) ∧
    (∀ addr_space addr : Nat,
      blockGet n (memory_image_to_equipartition n image) addr_space addr =
        (imageGet image (addr_space, addr)).getD 0) := by
  constructor
  · intro e he
    exact foldl_mem_isSome n image [] e he
  · intro a addr
    exact foldl_blockGet n hn image []
      (fun x hx => absurd hx (List.not_mem_nil x)) huniq a addr

/-- Witness for C9 at `N = 4` on a two-entry image. -/
theorem memory_image_partition_roundtrip_witness :
    blockGet 4 (memory_image_to_equipartition 4 [((1, 5), 7), ((1, 13), 9)]) 1 13 =
      (imageGet [((1, 5), 7), ((1, 13), 9)] (1, 13)).getD 0 :=
  (memory_image_partition_roundtrip 4 (by decide) [((1, 5), 7), ((1, 13), 9)]
    (by decide)).2 1 13

end OpenVM
